import Mathlib

/-!
Verification of the genutil repository's Ordered-Projection component
(`genutil_sortbykey.go`, `genutil_sortbyval.go`) and Resolved-File-Access
component (`ReadableFilename` / `WritableFilename` / `OpenAny` family and
`GetNumLines` in `genutil.go`).

Embedding conventions:
* The filesystem and process environment are an explicit oracle (`World`):
  `pathOK` models `os.Stat` success (Go `PathOK`), `executable` models
  `FileExecutable` (so realistically `executable p → pathOK p`, though the
  theorems do not need that), `removeOK` models `os.Remove` success,
  `pipeOK`/`startOK` model `Cmd.StdoutPipe`/`Cmd.Start` success, `openOK`
  models `os.Open` success, `gzipOK` models `gzip.NewReader` success, and
  `decoded` gives the fully decoded byte stream served by a physical path
  (identity for plain files, decompressed content for compressed ones,
  the captured stdout for scripts).
* Go strings are byte strings; all recognized suffixes are ASCII, and a
  UTF-8 byte-suffix consisting of ASCII bytes is exactly a character-list
  suffix, so filenames are Lean `String`s and `strings.HasSuffix` is
  embedded on `String.data` with Go's length/slice definition.
* Go `float64` map values are embedded as `Int`: the sorting claims are
  about the linear order on ordinary (non-NaN) numeric values, and the
  spec's examples are all integral.
* Go maps have unique keys and nondeterministic iteration order; a map is
  embedded as the association list produced by one iteration of
  `for k, v := range m`, and theorems quantify over all such lists.
* `sort.Sort(data)` with a strict `Less` leaves `data` sorted so that
  `Less(data[j], data[i])` is false for `i ≤ j`; this is exactly
  sortedness for the reflexive total closure of `Less`, which is the
  comparator used by the embedding (`List.insertionSort` with `≤`-shaped
  relations).
* A Go `panic` / `log.Panicf` is an explicit `panic` constructor in the
  result types.
* `bufio.Reader.ReadLine` over the `20*4096`-byte buffer every open sets
  up is modelled per call (`dropReadLine`): a newline within the buffer
  window ends a line; a full newline-free buffer is returned as a counted
  `isPrefix` fragment with a nil error; the remainder at EOF is a final
  line.  A gzip reader records whether `gzip.NewReader` succeeded, since
  `OpenAny` discards that error and the nil decoder makes the first read
  dereference nil.
-/

/-- An `exec.Cmd` as built by `exec.Command(prog, args...)`.  Note the
source builds the unzip command as `exec.Command("/usr/bin/unzip -p", f)`,
i.e. the blank is part of the program string; the embedding keeps that. -/
structure Cmd where
  prog : String
  args : List String
deriving DecidableEq, Repr

/-- Go `strings.HasSuffix(s, suffix)`:
`len(s) >= len(suffix) && s[len(s)-len(suffix):] == suffix`. -/
def hasSuffix (s suffix : String) : Bool :=
  decide (suffix.data.length ≤ s.data.length) &&
    (s.data.drop (s.data.length - suffix.data.length) == suffix.data)

/-- The filesystem / process oracle: one fixed state of the outside world
during a single call. -/
structure World where
  pathOK : String → Bool
  executable : String → Bool
  removeOK : String → Bool
  pipeOK : Cmd → Bool
  startOK : Cmd → Bool
  openOK : String → Bool
  gzipOK : String → Bool
  decoded : String → List Char

/-- Result of `ReadableFilename`: either a normal return of
`(ofname, ofcmd, ofcode)` or a Go panic. -/
inductive RFResult where
  | ok (ofname : String) (ofcmd : Option Cmd) (ofcode : Nat)
  | panic (msg : String)
deriving DecidableEq, Repr

/-- Go `_fname[:len(_fname)-n]` for an ASCII suffix of `n` bytes. -/
def dropRightChars (s : String) (n : Nat) : String :=
  ⟨s.data.take (s.data.length - n)⟩

/-- The base name computed by the second phase of `ReadableFilename` and
`WritableFilename`: strip one recognized compression suffix, if any. -/
def stripComp (fname : String) : String :=
  if hasSuffix fname ".xz" then dropRightChars fname 3
  else if hasSuffix fname ".gz" then dropRightChars fname 3
  else if hasSuffix fname ".bz2" then dropRightChars fname 4
  else if hasSuffix fname ".zip" then dropRightChars fname 4
  else fname

/-- `genutil.ReadableFilename` (genutil.go:1723):  exact-name phase with
suffix-determined access method, then the suffix-fallback phase, else a
not-found result `("/dev/null", nil, 0)`. -/
def ReadableFilename (w : World) (fname : String) : RFResult :=
  let fok := w.pathOK fname
  if hasSuffix fname ".xz" && fok then
    .ok fname (some ⟨"/usr/bin/xzcat", [fname]⟩) 1
  else if hasSuffix fname ".gz" && fok then
    .ok fname (some ⟨"/bin/zcat", [fname]⟩) 2
  else if hasSuffix fname ".bz2" && fok then
    .ok fname (some ⟨"/usr/bin/bzcat", [fname]⟩) 3
  else if hasSuffix fname ".zip" && fok then
    .ok fname (some ⟨"/usr/bin/unzip -p", [fname]⟩) 4
  else if hasSuffix fname ".bash" then
    if w.executable fname then .ok "/dev/null" (some ⟨fname, []⟩) 5
    else .panic ("bash file exists without execute permissions:" ++ fname)
  else if fok then
    .ok fname (some ⟨"/bin/cat", [fname]⟩) 6
  else
    let tmpf := stripComp fname
    if w.pathOK (tmpf ++ ".xz") then
      .ok (tmpf ++ ".xz") (some ⟨"/usr/bin/xzcat", [tmpf ++ ".xz"]⟩) 7
    else if w.pathOK (tmpf ++ ".gz") then
      .ok (tmpf ++ ".gz") (some ⟨"/bin/zcat", [tmpf ++ ".gz"]⟩) 8
    else if w.pathOK (tmpf ++ ".bz2") then
      .ok (tmpf ++ ".bz2") (some ⟨"/usr/bin/bzcat", [tmpf ++ ".bz2"]⟩) 9
    else if w.pathOK (tmpf ++ ".zip") then
      .ok (tmpf ++ ".zip") (some ⟨"/usr/bin/unzip -p", [tmpf ++ ".zip"]⟩) 10
    else if w.pathOK tmpf then
      .ok tmpf (some ⟨"/bin/cat", [tmpf]⟩) 11
    else
      .ok "/dev/null" none 0

/-- Result of `WritableFilename`: a normal return of `(ofname, ofcode)`
together with the list of files it removed, or a panic (from
`PathRemoveOrPanic`). -/
inductive WFResult where
  | ok (ofname : String) (ofcode : Nat) (deleted : List String)
  | panic (msg : String)
deriving DecidableEq, Repr

/-- `genutil.WritableFilename` (genutil.go:1829): same candidate priority as
`ReadableFilename` (without the `.bash` case), deleting the match via
`PathRemoveOrPanic`, which panics when `os.Remove` fails. -/
def WritableFilename (w : World) (fname : String) : WFResult :=
  let fok := w.pathOK fname
  let rm : String → Nat → WFResult := fun p k =>
    if w.removeOK p then .ok p k [p] else .panic ("remove failed:" ++ p)
  if hasSuffix fname ".xz" && fok then rm fname 1
  else if hasSuffix fname ".gz" && fok then rm fname 2
  else if hasSuffix fname ".bz2" && fok then rm fname 3
  else if hasSuffix fname ".zip" && fok then rm fname 4
  else if fok then rm fname 6
  else
    let tmpf := stripComp fname
    if w.pathOK (tmpf ++ ".xz") then rm (tmpf ++ ".xz") 7
    else if w.pathOK (tmpf ++ ".gz") then rm (tmpf ++ ".gz") 8
    else if w.pathOK (tmpf ++ ".bz2") then rm (tmpf ++ ".bz2") 9
    else if w.pathOK (tmpf ++ ".zip") then rm (tmpf ++ ".zip") 10
    else if w.pathOK tmpf then rm tmpf 11
    else .ok "/dev/null" 0 []

/-- The stream a successful open exposes: a subprocess stdout pipe (with
`started` recording whether `Cmd.Start` succeeded — `OpenAny` ignores that
error), a plain file, or an in-process gzip / bzip2 decoder over a file.
A gzip reader carries `ok` recording whether `gzip.NewReader` succeeded:
`OpenAny` discards that error too and wraps the nil decoder, which makes
the first read dereference nil (`OpenAnyErr` only ever builds `ok = true`
readers). -/
inductive Reader where
  | pipe (c : Cmd) (started : Bool)
  | file (name : String)
  | gzipr (name : String) (ok : Bool)
  | bzipr (name : String)
deriving DecidableEq, Repr

/-- Result of `OpenAny` / `OpenAnyIO`: the (possibly nil) reader, or a
`log.Panicf` abort. -/
inductive OpenResult where
  | ok (r : Option Reader)
  | panic (msg : String)
deriving DecidableEq, Repr

/-- Result of `OpenAnyErr`: a reader, an explicit error, or a panic
propagated from `ReadableFilename`. -/
inductive OpenErrResult where
  | ok (r : Reader)
  | error (msg : String)
  | panic (msg : String)
deriving DecidableEq, Repr

/-- `genutil.OpenAny` (genutil.go:1973).  Faithful to the source:
in the subprocess cases the error checked after `ofcmd.Start()` is the one
returned by `StdoutPipe()`, so a `Start` failure is silently ignored and
the never-started pipe is returned; in the gzip case the error from
`gzip.NewReader` is likewise ignored. -/
def OpenAny (w : World) (fname : String) : OpenResult :=
  match ReadableFilename w fname with
  | .panic m => .panic m
  | .ok ofname ofcmd ofcode =>
    match ofcmd with
    | none => .ok none
    | some c =>
      if ofcode = 1 ∨ ofcode = 7 ∨ ofcode = 4 ∨ ofcode = 10 ∨ ofcode = 5 then
        if w.pipeOK c then .ok (some (.pipe c (w.startOK c)))
        else .panic ("genutil.OpenAny: StdoutPipe failed " ++ fname)
      else if ofcode = 2 ∨ ofcode = 8 then
        if w.openOK ofname then .ok (some (.gzipr ofname (w.gzipOK ofname)))
        else .panic ("genutil.OpenAny: open failed " ++ ofname)
      else if ofcode = 3 ∨ ofcode = 9 then
        if w.openOK ofname then .ok (some (.bzipr ofname))
        else .panic ("genutil.OpenAny: open failed " ++ ofname)
      else if ofcode = 6 ∨ ofcode = 11 then
        if w.openOK ofname then .ok (some (.file ofname))
        else .panic ("genutil.OpenAny: open failed " ++ ofname)
      else .ok none

/-- `genutil.OpenAnyIO` (genutil.go:2018): same structure as `OpenAny`
(the Go versions differ only in buffering, not modelled), including the
same ignored `Start` error. -/
def OpenAnyIO (w : World) (fname : String) : OpenResult :=
  match ReadableFilename w fname with
  | .panic m => .panic m
  | .ok ofname ofcmd ofcode =>
    match ofcmd with
    | none => .ok none
    | some c =>
      if ofcode = 1 ∨ ofcode = 7 ∨ ofcode = 4 ∨ ofcode = 10 ∨ ofcode = 5 then
        if w.pipeOK c then .ok (some (.pipe c (w.startOK c)))
        else .panic ("genutil.OpenAny: StdoutPipe failed " ++ fname)
      else if ofcode = 2 ∨ ofcode = 8 then
        if w.openOK ofname then .ok (some (.gzipr ofname (w.gzipOK ofname)))
        else .panic ("genutil.OpenAnyIO: open failed " ++ ofname)
      else if ofcode = 3 ∨ ofcode = 9 then
        if w.openOK ofname then .ok (some (.bzipr ofname))
        else .panic ("genutil.OpenAnyIO: open failed " ++ ofname)
      else if ofcode = 6 ∨ ofcode = 11 then
        if w.openOK ofname then .ok (some (.file ofname))
        else .panic ("genutil.OpenAnyIO: open failed " ++ ofname)
      else .ok none

/-- `genutil.OpenAnyErr` (genutil.go:2062): a nil command (the not-found
case) is an error, and both the `StdoutPipe` and the `Start` errors are
checked and returned; `gzip.NewReader` failure is also returned. -/
def OpenAnyErr (w : World) (fname : String) : OpenErrResult :=
  match ReadableFilename w fname with
  | .panic m => .panic m
  | .ok ofname ofcmd ofcode =>
    match ofcmd with
    | none => .error "os.exec.Command returned nil pointer"
    | some c =>
      if ofcode = 1 ∨ ofcode = 7 ∨ ofcode = 4 ∨ ofcode = 10 ∨ ofcode = 5 then
        if w.pipeOK c then
          if w.startOK c then .ok (.pipe c true)
          else .error ("start failed:" ++ c.prog)
        else .error ("stdout pipe failed:" ++ c.prog)
      else if ofcode = 2 ∨ ofcode = 8 then
        if w.openOK ofname then
          if w.gzipOK ofname then .ok (.gzipr ofname true)
          else .error ("gzip.NewReader failed:" ++ ofname)
        else .error ("open failed:" ++ ofname)
      else if ofcode = 3 ∨ ofcode = 9 then
        if w.openOK ofname then .ok (.bzipr ofname)
        else .error ("open failed:" ++ ofname)
      else if ofcode = 6 ∨ ofcode = 11 then
        if w.openOK ofname then .ok (.file ofname)
        else .error ("open failed:" ++ ofname)
      else .error "OpenAnyErr : unknown ofcode"

/-- The decoded byte stream a `Reader` yields: a pipe whose subprocess was
never started yields nothing; otherwise the oracle's decoded content of
the underlying physical path (the file argument of the subprocess command,
or the command itself for an argument-less script). -/
def contentOf (w : World) : Reader → List Char
  | .pipe c started =>
    if started then
      w.decoded (match c.args with | a :: _ => a | [] => c.prog)
    else []
  | .file n => w.decoded n
  | .gzipr n ok => if ok then w.decoded n else []
  | .bzipr n => w.decoded n

/-- Drop one line from the stream: everything up to and including the first
newline byte (a final unterminated line consumes the rest). -/
def dropLine : List Char → List Char
  | [] => []
  | c :: cs => if c = '\n' then cs else dropLine cs

theorem dropLine_length_le (s : List Char) : (dropLine s).length ≤ s.length := by
  induction s with
  | nil => simp [dropLine]
  | cons c cs ih =>
    simp only [dropLine]
    split
    · simp
    · exact Nat.le_succ_of_le ih

theorem dropLine_cons_length (c : Char) (cs : List Char) :
    (dropLine (c :: cs)).length ≤ cs.length := by
  simp only [dropLine]
  split
  · exact le_refl _
  · exact dropLine_length_le cs

/-- The size of the buffer `OpenAny` and its siblings give every reader:
`bufio.NewReaderSize(_, 20*4096)`. -/
def bufSize : Nat := 20 * 4096

/-- The length of the leading newline-free run of a stream: the index of
the first newline byte, or the stream length when there is none. -/
def nlRun (s : List Char) : Nat := (s.takeWhile (fun c => c ≠ '\n')).length

/-- What one `bufio.Reader.ReadLine` call consumes from the stream
(`ReadSlice` semantics over a `bufSize`-byte buffer): when the first
newline lies within the buffer window, the line up to and including it;
otherwise, when the whole rest fits in the buffer, everything (the final
line, delivered at EOF); otherwise a full buffer worth of bytes — an
`isPrefix` fragment of an over-long line, returned with a nil error. -/
def dropReadLine (s : List Char) : List Char :=
  if nlRun s < bufSize ∧ nlRun s < s.length then s.drop (nlRun s + 1)
  else if s.length ≤ bufSize then []
  else s.drop bufSize

theorem dropReadLine_length_lt (c : Char) (cs : List Char) :
    (dropReadLine (c :: cs)).length < (c :: cs).length := by
  unfold dropReadLine
  split
  · rw [List.length_drop]
    simp only [List.length_cons]
    omega
  · split
    · simp
    · rename_i hbuf
      rw [List.length_drop]
      have hpos : 0 < bufSize := by norm_num [bufSize]
      simp only [List.length_cons] at hbuf ⊢
      omega

/-- The number of `bufio.Reader.ReadLine` calls on a stream that return
data with a nil error — what the `GetNumLines` loop counts.  Each call
consumes a `dropReadLine` step, so a newline-free run of `bufSize` or more
bytes is counted once per buffered fragment; on an empty stream `ReadLine`
immediately reports `io.EOF`. -/
def readLineCount (s : List Char) : Nat :=
  match s with
  | [] => 0
  | c :: cs => 1 + readLineCount (dropReadLine (c :: cs))
termination_by s.length
decreasing_by
  exact dropReadLine_length_lt c cs

/-- The idealized whole-line-per-call count (no buffer bound): the number
of lines, a final unterminated line included.  `readLineCount` coincides
with it exactly when every newline-free run fits in the buffer. -/
def readLineFull (s : List Char) : Nat :=
  match s with
  | [] => 0
  | c :: cs => 1 + readLineFull (dropLine (c :: cs))
termination_by s.length
decreasing_by
  exact Nat.lt_succ_of_le (dropLine_cons_length c cs)

/-- Whether every maximal newline-free run of the stream is shorter than
the read buffer (`run` is the length already consumed of the current
run): under this condition `ReadLine` never fragments a line. -/
def runFit : Nat → List Char → Bool
  | run, [] => decide (run < bufSize)
  | run, c :: cs =>
    if c = '\n' then decide (run < bufSize) && runFit 0 cs
    else runFit (run + 1) cs

/-- Whether reading from the reader succeeds at all: a gzip reader built
from a failed `gzip.NewReader` is a buffered reader over a nil decoder,
and the first read dereferences nil. -/
def readerOK : Reader → Bool
  | .gzipr _ ok => ok
  | _ => true

/-- Result of `GetNumLines`: the count, or a panic (a nil `*bufio.Reader`
from `OpenAny` makes the unconditional `r.ReadLine()` dereference nil, and
a reader over a nil gzip decoder dereferences nil at the first read). -/
inductive NumResult where
  | ok (n : Nat)
  | panic (msg : String)
deriving DecidableEq, Repr

/-- `genutil.GetNumLines` (genutil.go:2488): open via `OpenAny`, then loop
`r.ReadLine()` until it errors, counting iterations. -/
def GetNumLines (w : World) (fname : String) : NumResult :=
  match OpenAny w fname with
  | .panic m => .panic m
  | .ok none => .panic "runtime error: invalid memory address or nil pointer dereference"
  | .ok (some r) =>
    if readerOK r then .ok (readLineCount (contentOf w r))
    else .panic "runtime error: invalid memory address or nil pointer dereference"

/-! ### Ordered-Projection component

Each Go function collects the map entries in iteration order and applies
`sort.Strings` / `sort.Ints` / `sort.Sort` with the `Less` of the
corresponding `myelemSlice...` type.  The embedding takes the iteration
order as the input association list and sorts with `List.insertionSort`
under the reflexive closure of `Less` (the postcondition of `sort.Sort`).
-/

/-- Go `sort.Strings` comparator: bytewise lexicographic order.  For UTF-8
this equals lexicographic order on the character sequence, embedded here
as the lexicographic order on `String.data` (Lean's own `String ≤` is the
same order but its decision procedure does not reduce in the kernel). -/
def strLe (a b : String) : Prop := a.data ≤ b.data

instance : DecidableRel strLe := fun a b => inferInstanceAs (Decidable (a.data ≤ b.data))

instance : IsTotal String strLe := ⟨fun a b => le_total a.data b.data⟩

instance : IsTrans String strLe := ⟨fun _ _ _ h₁ h₂ => le_trans h₁ h₂⟩

instance : IsAntisymm String strLe := ⟨fun a b h₁ h₂ => by
  cases a; cases b
  exact congrArg String.mk (le_antisymm h₁ h₂)⟩

/-- Comparator of `myelemSliceFloat64SortAscending` (`val_ <`), reflexive
closure. -/
def ascRel (a b : String × Int) : Prop := a.2 ≤ b.2

/-- Comparator of `myelemSliceFloat64SortDescending` (`val_ >`), reflexive
closure. -/
def descRel (a b : String × Int) : Prop := b.2 ≤ a.2

/-- Comparator of `myelemSliceFloat64SortAbsAscending`
(`math.Abs(val_) <`), reflexive closure. -/
def absAscRel (a b : String × Int) : Prop := |a.2| ≤ |b.2|

/-- Comparator of `myelemSliceFloat64SortAbsDescending`
(`math.Abs(val_) >`), reflexive closure. -/
def absDescRel (a b : String × Int) : Prop := |b.2| ≤ |a.2|

instance : DecidableRel ascRel := fun a b => inferInstanceAs (Decidable (a.2 ≤ b.2))

instance : DecidableRel descRel := fun a b => inferInstanceAs (Decidable (b.2 ≤ a.2))

instance : DecidableRel absAscRel := fun a b => inferInstanceAs (Decidable (|a.2| ≤ |b.2|))

instance : DecidableRel absDescRel := fun a b => inferInstanceAs (Decidable (|b.2| ≤ |a.2|))

instance : IsTotal (String × Int) ascRel := ⟨fun a b => le_total a.2 b.2⟩

instance : IsTrans (String × Int) ascRel := ⟨fun _ _ _ h₁ h₂ => le_trans h₁ h₂⟩

instance : IsTotal (String × Int) descRel := ⟨fun a b => le_total b.2 a.2⟩

instance : IsTrans (String × Int) descRel := ⟨fun _ _ _ h₁ h₂ => le_trans h₂ h₁⟩

instance : IsTotal (String × Int) absAscRel := ⟨fun _ _ => le_total _ _⟩

instance : IsTrans (String × Int) absAscRel := ⟨fun _ _ _ h₁ h₂ => le_trans h₁ h₂⟩

instance : IsTotal (String × Int) absDescRel := ⟨fun _ _ => le_total _ _⟩

instance : IsTrans (String × Int) absDescRel := ⟨fun _ _ _ h₁ h₂ => le_trans h₂ h₁⟩

/-- `genutil.SortedKeys_String2Int`: collect the keys, `sort.Strings`. -/
def SortedKeys_String2Int (mp : List (String × Int)) : List String :=
  (mp.map Prod.fst).insertionSort strLe

/-- `genutil.SortedKeys_String2Int64`. -/
def SortedKeys_String2Int64 (mp : List (String × Int)) : List String :=
  (mp.map Prod.fst).insertionSort strLe

/-- `genutil.SortedKeys_String2Float64`. -/
def SortedKeys_String2Float64 (mp : List (String × Int)) : List String :=
  (mp.map Prod.fst).insertionSort strLe

/-- `genutil.SortedKeys_String2Bool`. -/
def SortedKeys_String2Bool (mp : List (String × Bool)) : List String :=
  (mp.map Prod.fst).insertionSort strLe

/-- `genutil.SortedKeys_String2String`. -/
def SortedKeys_String2String (mp : List (String × String)) : List String :=
  (mp.map Prod.fst).insertionSort strLe

/-- `genutil.SortedKeys_Int2Int`: collect the keys, `sort.Ints`. -/
def SortedKeys_Int2Int (mp : List (Int × Int)) : List Int :=
  (mp.map Prod.fst).insertionSort (fun a b => a ≤ b)

/-- `genutil.SortedKeysByVal_String2Float64_Ascending`: collect the
(key, value) pairs, `sort.Sort` by value ascending, extract the keys. -/
def SortedKeysByVal_String2Float64_Ascending (mp : List (String × Int)) : List String :=
  (mp.insertionSort ascRel).map Prod.fst

/-- `genutil.SortedKeysByVal_String2Float64_Descending`. -/
def SortedKeysByVal_String2Float64_Descending (mp : List (String × Int)) : List String :=
  (mp.insertionSort descRel).map Prod.fst

/-- `genutil.SortedKeysByVal_String2Float64_AbsAscending`. -/
def SortedKeysByVal_String2Float64_AbsAscending (mp : List (String × Int)) : List String :=
  (mp.insertionSort absAscRel).map Prod.fst

/-- `genutil.SortedKeysByVal_String2Float64_AbsDescending`. -/
def SortedKeysByVal_String2Float64_AbsDescending (mp : List (String × Int)) : List String :=
  (mp.insertionSort absDescRel).map Prod.fst

/-! ### Spec-side formulations (from the specification's words) -/

/-- Modelled from the spec: return the first candidate `(path, cmd, code)`
whose path exists, as a read resolution result; not-found otherwise. -/
def firstMatch (w : World) : List (String × Cmd × Nat) → RFResult
  | [] => .ok "/dev/null" none 0
  | (p, c, k) :: rest =>
    if w.pathOK p then .ok p (some c) k else firstMatch w rest

/-- The fallback candidates of read resolution, in the spec's priority
order: base+".xz", base+".gz", base+".bz2", base+".zip", bare base. -/
def fallbackCands (fname : String) : List (String × Cmd × Nat) :=
  let b := stripComp fname
  [(b ++ ".xz", ⟨"/usr/bin/xzcat", [b ++ ".xz"]⟩, 7),
   (b ++ ".gz", ⟨"/bin/zcat", [b ++ ".gz"]⟩, 8),
   (b ++ ".bz2", ⟨"/usr/bin/bzcat", [b ++ ".bz2"]⟩, 9),
   (b ++ ".zip", ⟨"/usr/bin/unzip -p", [b ++ ".zip"]⟩, 10),
   (b, ⟨"/bin/cat", [b]⟩, 11)]

/-- Every path read resolution ever checks for existence: the exact name,
then the fallback candidates. -/
def readCands (fname : String) : List String :=
  fname :: (fallbackCands fname).map Prod.fst

/-- The status code of an exact-name match in `WritableFilename`,
determined by the suffix. -/
def exactCode (fname : String) : Nat :=
  if hasSuffix fname ".xz" then 1
  else if hasSuffix fname ".gz" then 2
  else if hasSuffix fname ".bz2" then 3
  else if hasSuffix fname ".zip" then 4
  else 6

/-- The write-resolution candidates in priority order, with status codes:
the exact name first, then the compression variants of the base, then the
bare base. -/
def wfCands (fname : String) : List (String × Nat) :=
  let b := stripComp fname
  [(fname, exactCode fname),
   (b ++ ".xz", 7), (b ++ ".gz", 8), (b ++ ".bz2", 9), (b ++ ".zip", 10), (b, 11)]

/-- Modelled from the spec: delete the first existing candidate and return
it (panicking when the deletion fails); signal not-found when no candidate
exists.  Exactly one file is ever deleted. -/
def firstRemove (w : World) : List (String × Nat) → WFResult
  | [] => .ok "/dev/null" 0 []
  | (p, k) :: rest =>
    if w.pathOK p then
      if w.removeOK p then .ok p k [p] else .panic ("remove failed:" ++ p)
    else firstRemove w rest

/-- The number of newline-terminated records in a stream (the spec's
notion of line count). -/
def nlRecords (s : List Char) : Nat := s.count '\n'

/-- Whether a stream ends in a nonempty record not terminated by a
newline. -/
def trailingUnterminated (s : List Char) : Bool :=
  match s.getLast? with
  | none => false
  | some c => decide (c ≠ '\n')

/-! ### Helper lemmas -/

/-- If `s` has suffix `a`, and `b` does not agree with the tail of `a`,
then `s` does not have suffix `b`. -/
theorem hasSuffix_false_of_hasSuffix {s a b : String}
    (h : hasSuffix s a = true)
    (hlen : b.data.length ≤ a.data.length)
    (hne : a.data.drop (a.data.length - b.data.length) ≠ b.data) :
    hasSuffix s b = false := by
  unfold hasSuffix at h ⊢
  simp only [Bool.and_eq_true, decide_eq_true_eq, beq_iff_eq] at h
  obtain ⟨hla, hdrop⟩ := h
  have hkey : s.data.drop (s.data.length - b.data.length)
      = a.data.drop (a.data.length - b.data.length) := by
    conv_rhs => rw [← hdrop]
    rw [List.drop_drop]
    congr 1
    rw [List.length_drop]
    omega
  rw [hkey]
  simp only [Bool.and_eq_false_iff, beq_eq_false_iff_ne, ne_eq]
  right
  exact hne

/-- In a pair list with duplicate-free keys, an entry whose key matches the
key at position `n` is the entry at position `n`. -/
theorem get_of_mem_nodupKeys {α β : Type} (s : List (α × β))
    (hnd : (s.map Prod.fst).Nodup) (n : Nat) (hn : n < s.length)
    (k : α) (v : β) (hmem : (k, v) ∈ s)
    (he : Prod.fst (s.get ⟨n, hn⟩) = k) : s.get ⟨n, hn⟩ = (k, v) := by
  obtain ⟨m, hm, hgm⟩ := List.mem_iff_getElem.mp hmem
  have hn' : n < (s.map Prod.fst).length := by simpa using hn
  have hm' : m < (s.map Prod.fst).length := by simpa using hm
  have hkm : Prod.fst (s.get ⟨m, hm⟩) = k := by
    simp only [List.get_eq_getElem, hgm]
  have hmap : (s.map Prod.fst).get ⟨n, hn'⟩ = (s.map Prod.fst).get ⟨m, hm'⟩ := by
    simp only [List.get_eq_getElem, List.getElem_map]
    simp only [List.get_eq_getElem] at he hkm
    rw [he, hkm]
  have hfin : (⟨n, hn'⟩ : Fin ((s.map Prod.fst).length)) = ⟨m, hm'⟩ :=
    hnd.get_inj_iff.mp hmap
  have hnm : n = m := by simpa using hfin
  subst hnm
  simp only [List.get_eq_getElem]
  exact hgm

/-- Values at increasing positions of a key list produced by sorting pairs
with a total transitive comparator satisfy that comparator, provided the
keys are duplicate-free. -/
theorem byVal_adjacent {r : String × Int → String × Int → Prop} [DecidableRel r]
    [IsTotal (String × Int) r] [IsTrans (String × Int) r]
    (mp : List (String × Int)) (hnd : (mp.map Prod.fst).Nodup)
    (i j : Nat) (hij : i < j) (hj : j < ((mp.insertionSort r).map Prod.fst).length)
    (k₁ k₂ : String) (v₁ v₂ : Int) (h₁ : (k₁, v₁) ∈ mp) (h₂ : (k₂, v₂) ∈ mp)
    (e₁ : ((mp.insertionSort r).map Prod.fst).get ⟨i, lt_trans hij hj⟩ = k₁)
    (e₂ : ((mp.insertionSort r).map Prod.fst).get ⟨j, hj⟩ = k₂) :
    r (k₁, v₁) (k₂, v₂) := by
  have hsorted : List.Sorted r (mp.insertionSort r) := List.sorted_insertionSort r mp
  have hperm : (mp.insertionSort r).Perm mp := List.perm_insertionSort r mp
  have hndS : ((mp.insertionSort r).map Prod.fst).Nodup :=
    ((hperm.map Prod.fst).nodup_iff).mpr hnd
  have hj' : j < (mp.insertionSort r).length := by simpa using hj
  have hi' : i < (mp.insertionSort r).length := lt_trans hij hj'
  have hf₁ : Prod.fst ((mp.insertionSort r).get ⟨i, hi'⟩) = k₁ := by
    simp only [List.get_eq_getElem] at e₁ ⊢
    simpa [List.getElem_map] using e₁
  have hf₂ : Prod.fst ((mp.insertionSort r).get ⟨j, hj'⟩) = k₂ := by
    simp only [List.get_eq_getElem] at e₂ ⊢
    simpa [List.getElem_map] using e₂
  have hg₁ : (mp.insertionSort r).get ⟨i, hi'⟩ = (k₁, v₁) :=
    get_of_mem_nodupKeys _ hndS i hi' k₁ v₁ (hperm.mem_iff.mpr h₁) hf₁
  have hg₂ : (mp.insertionSort r).get ⟨j, hj'⟩ = (k₂, v₂) :=
    get_of_mem_nodupKeys _ hndS j hj' k₂ v₂ (hperm.mem_iff.mpr h₂) hf₂
  have hrel := hsorted.rel_get_of_lt (a := ⟨i, hi'⟩) (b := ⟨j, hj'⟩)
    (Fin.mk_lt_mk.mpr hij)
  rw [hg₁, hg₂] at hrel
  exact hrel

theorem dropLine_cons (c : Char) (cs : List Char) :
    dropLine (c :: cs) = if c = '\n' then cs else dropLine cs := rfl

/-- `readLineFull` closed form: the number of newline bytes, plus one for
a final nonempty record not terminated by a newline. -/
theorem readLineFull_eq (s : List Char) :
    readLineFull s = nlRecords s + (if trailingUnterminated s then 1 else 0) := by
  induction s with
  | nil => simp [readLineFull, nlRecords, trailingUnterminated]
  | cons c cs ih =>
    rw [readLineFull, dropLine_cons]
    by_cases hc : c = '\n'
    · subst hc
      rw [if_pos rfl]
      cases cs with
      | nil => simp [readLineFull, nlRecords, trailingUnterminated]
      | cons d ds =>
        rw [ih]
        have h1 : nlRecords ('\n' :: d :: ds) = 1 + nlRecords (d :: ds) := by
          simp [nlRecords, List.count_cons]
          omega
        have h2 : trailingUnterminated ('\n' :: d :: ds) = trailingUnterminated (d :: ds) := by
          simp [trailingUnterminated, List.getLast?_cons_cons]
        rw [h1, h2]
        omega
    · rw [if_neg hc]
      cases cs with
      | nil =>
        have h1 : nlRecords [c] = 0 := by
          simp [nlRecords, List.count_cons, hc]
        have h2 : trailingUnterminated [c] = true := by
          simp [trailingUnterminated, hc]
        rw [dropLine]
        simp [readLineFull, h1, h2]
      | cons d ds =>
        have hstep : readLineFull (d :: ds) = 1 + readLineFull (dropLine (d :: ds)) := by
          rw [readLineFull]
        rw [← hstep, ih]
        have h1 : nlRecords (c :: d :: ds) = nlRecords (d :: ds) := by
          simp [nlRecords, List.count_cons, hc]
        have h2 : trailingUnterminated (c :: d :: ds) = trailingUnterminated (d :: ds) := by
          simp [trailingUnterminated, List.getLast?_cons_cons]
        rw [h1, h2]

theorem nlRun_cons_newline (cs : List Char) : nlRun ('\n' :: cs) = 0 := by
  simp [nlRun, List.takeWhile_cons]

theorem nlRun_cons_of_ne {c : Char} (hc : ¬c = '\n') (cs : List Char) :
    nlRun (c :: cs) = nlRun cs + 1 := by
  simp [nlRun, List.takeWhile_cons, hc]

theorem nlRun_le_length (s : List Char) : nlRun s ≤ s.length :=
  (List.takeWhile_sublist _).length_le

/-- Consuming a whole line is dropping through the first newline — or the
whole stream when there is none. -/
theorem dropLine_eq_drop (s : List Char) : dropLine s = s.drop (nlRun s + 1) := by
  induction s with
  | nil => simp [dropLine]
  | cons c cs ih =>
    by_cases hc : c = '\n'
    · subst hc
      rw [dropLine_cons, if_pos rfl, nlRun_cons_newline, List.drop_succ_cons, List.drop_zero]
    · rw [dropLine_cons, if_neg hc, ih, nlRun_cons_of_ne hc, List.drop_succ_cons]

/-- A fitting stream begins with a newline-free run strictly inside the
buffer (with `run` bytes of the current run already consumed). -/
theorem runFit_first : ∀ (s : List Char) (run : Nat), runFit run s = true →
    run + nlRun s < bufSize := by
  intro s
  induction s with
  | nil =>
    intro run h
    simp only [runFit, decide_eq_true_eq] at h
    simpa [nlRun] using h
  | cons c cs ih =>
    intro run h
    by_cases hc : c = '\n'
    · subst hc
      simp [runFit] at h
      obtain ⟨h1, h2⟩ := h
      rw [nlRun_cons_newline]
      omega
    · simp only [runFit, if_neg hc] at h
      have := ih (run + 1) h
      rw [nlRun_cons_of_ne hc]
      omega

/-- Fitting streams stay fitting after a whole line is consumed. -/
theorem runFit_dropLine : ∀ (s : List Char) (run : Nat), runFit run s = true →
    runFit 0 (dropLine s) = true := by
  intro s
  induction s with
  | nil =>
    intro run _
    simp [dropLine, runFit, bufSize]
  | cons c cs ih =>
    intro run h
    by_cases hc : c = '\n'
    · subst hc
      rw [dropLine_cons, if_pos rfl]
      simp [runFit] at h
      exact h.2
    · rw [dropLine_cons, if_neg hc]
      simp only [runFit, if_neg hc] at h
      exact ih (run + 1) h

/-- When the first newline-free run fits strictly inside the buffer, one
`ReadLine` call consumes exactly one whole line. -/
theorem dropReadLine_eq_dropLine (s : List Char) (h : nlRun s < bufSize) :
    dropReadLine s = dropLine s := by
  unfold dropReadLine
  by_cases h2 : nlRun s < s.length
  · rw [if_pos ⟨h, h2⟩, dropLine_eq_drop]
  · rw [if_neg (by tauto)]
    have hle : nlRun s ≤ s.length := nlRun_le_length s
    have heq : nlRun s = s.length := le_antisymm hle (not_lt.mp h2)
    rw [if_pos (by omega), dropLine_eq_drop, heq]
    exact (List.drop_eq_nil_of_le (by omega)).symm

/-- When every newline-free run of the stream fits strictly inside the
read buffer, the buffered call count equals the whole-line count. -/
theorem readLineCount_eq_full : ∀ (n : Nat) (s : List Char), s.length ≤ n →
    runFit 0 s = true → readLineCount s = readLineFull s := by
  intro n
  induction n with
  | zero =>
    intro s hs _
    have hnil : s = [] := List.length_eq_zero.mp (Nat.le_zero.mp hs)
    subst hnil
    simp [readLineCount, readLineFull]
  | succ n ih =>
    intro s hs hfit
    cases s with
    | nil => simp [readLineCount, readLineFull]
    | cons c cs =>
      rw [readLineCount, readLineFull]
      have h2 : nlRun (c :: cs) < bufSize := by
        have := runFit_first (c :: cs) 0 hfit
        omega
      rw [dropReadLine_eq_dropLine _ h2]
      have h5 : (dropLine (c :: cs)).length ≤ n := by
        have := dropLine_cons_length c cs
        simp only [List.length_cons] at hs
        omega
      rw [ih (dropLine (c :: cs)) h5 (runFit_dropLine (c :: cs) 0 hfit)]

/-- The `GetNumLines` loop count in closed form, on streams whose
newline-free runs all fit in the buffer: newline count plus one for a
final unterminated nonempty record. -/
theorem readLineCount_of_fit (s : List Char) (hfit : runFit 0 s = true) :
    readLineCount s = nlRecords s + (if trailingUnterminated s then 1 else 0) :=
  (readLineCount_eq_full s.length s (le_refl _) hfit).trans (readLineFull_eq s)

theorem readLineCount_pos (s : List Char) (h : s ≠ []) :
    readLineCount s = 1 + readLineCount (dropReadLine s) := by
  cases s with
  | nil => exact absurd rfl h
  | cons c cs => rw [readLineCount]

/-- The buffer bound is real in the model: one newline-terminated record
of exactly `bufSize` bytes is counted twice (one full-buffer `isPrefix`
fragment, then the empty remainder of the line), even though it is a
single newline-terminated record. -/
theorem readLineCount_fragments :
    readLineCount (List.replicate bufSize 'a' ++ ['\n']) = 2 := by
  have key : ∀ n : Nat, List.takeWhile (fun c => decide (c ≠ '\n'))
      (List.replicate n 'a' ++ ['\n']) = List.replicate n 'a' := by
    intro n
    induction n with
    | zero => decide
    | succ n ih => simp [List.replicate_succ, List.takeWhile_cons, ih]
  have hrun : nlRun (List.replicate bufSize 'a' ++ ['\n']) = bufSize := by
    simp only [nlRun, key bufSize, List.length_replicate]
  have hlen : (List.replicate bufSize 'a' ++ ['\n']).length = bufSize + 1 := by
    rw [List.length_append, List.length_replicate, List.length_singleton]
  have hdrop : dropReadLine (List.replicate bufSize 'a' ++ ['\n']) = ['\n'] := by
    unfold dropReadLine
    rw [hrun, hlen, if_neg (by omega), if_neg (by omega)]
    have hd := List.drop_left (List.replicate bufSize 'a') ['\n']
    rw [List.length_replicate] at hd
    exact hd
  rw [readLineCount_pos _ (by simp), hdrop,
    readLineCount_pos ['\n'] (by simp)]
  have h2 : dropReadLine ['\n'] = [] := by decide
  rw [h2]
  simp [readLineCount]

/-! ### Concrete worlds used by witnesses and counterexamples -/

/-- A world in which exactly the listed paths exist, the listed paths are
executable, every filesystem operation succeeds, and `content` gives the
decoded stream of each path. -/
def mkWorld (paths execs : List String) (content : String → List Char) : World where
  pathOK := fun p => paths.contains p
  executable := fun p => execs.contains p
  removeOK := fun _ => true
  pipeOK := fun _ => true
  startOK := fun _ => true
  openOK := fun _ => true
  gzipOK := fun _ => true
  decoded := content

/-- An empty decoded-content oracle. -/
def noContent : String → List Char := fun _ => []

/-! ### Claims -/

/-- C1: read resolution follows the strict candidate priority order.
Exact-name phase: when the path exists as given, the result is determined
by its suffix (return the name itself with the matching decompression
pipe / decode command for `.xz`, `.gz`, `.bz2`, `.zip`; the
script-execution command for an executable `.bash`; a direct `/bin/cat`
read otherwise).  Only when the exact name does not exist (and the name is
not a `.bash` script, which never reaches the fallback) does resolution
strip a recognized compression suffix and try base+".xz", base+".gz",
base+".bz2", base+".zip", then the bare base, returning the first
candidate that exists with its matching access method (`firstMatch` over
`fallbackCands`). -/
theorem readable_priority (w : World) (fname : String) :
    (w.pathOK fname = true →
      (hasSuffix fname ".xz" = true →
        ReadableFilename w fname = .ok fname (some ⟨"/usr/bin/xzcat", [fname]⟩) 1) ∧
      (hasSuffix fname ".gz" = true →
        ReadableFilename w fname = .ok fname (some ⟨"/bin/zcat", [fname]⟩) 2) ∧
      (hasSuffix fname ".bz2" = true →
        ReadableFilename w fname = .ok fname (some ⟨"/usr/bin/bzcat", [fname]⟩) 3) ∧
      (hasSuffix fname ".zip" = true →
        ReadableFilename w fname = .ok fname (some ⟨"/usr/bin/unzip -p", [fname]⟩) 4) ∧
      (hasSuffix fname ".bash" = true → w.executable fname = true →
        ReadableFilename w fname = .ok "/dev/null" (some ⟨fname, []⟩) 5) ∧
      (hasSuffix fname ".xz" = false → hasSuffix fname ".gz" = false →
        hasSuffix fname ".bz2" = false → hasSuffix fname ".zip" = false →
        hasSuffix fname ".bash" = false →
        ReadableFilename w fname = .ok fname (some ⟨"/bin/cat", [fname]⟩) 6)) ∧
    (w.pathOK fname = false → hasSuffix fname ".bash" = false →
      ReadableFilename w fname = firstMatch w (fallbackCands fname)) := by
  constructor
  · intro hfok
    refine ⟨?_, ?_, ?_, ?_, ?_, ?_⟩
    · intro hxz
      simp [ReadableFilename, hxz, hfok]
    · intro hgz
      have hxz : hasSuffix fname ".xz" = false :=
        hasSuffix_false_of_hasSuffix hgz (by decide) (by decide)
      simp [ReadableFilename, hgz, hxz, hfok]
    · intro hbz2
      have hxz : hasSuffix fname ".xz" = false :=
        hasSuffix_false_of_hasSuffix hbz2 (by decide) (by decide)
      have hgz : hasSuffix fname ".gz" = false :=
        hasSuffix_false_of_hasSuffix hbz2 (by decide) (by decide)
      simp [ReadableFilename, hbz2, hxz, hgz, hfok]
    · intro hzip
      have hxz : hasSuffix fname ".xz" = false :=
        hasSuffix_false_of_hasSuffix hzip (by decide) (by decide)
      have hgz : hasSuffix fname ".gz" = false :=
        hasSuffix_false_of_hasSuffix hzip (by decide) (by decide)
      have hbz2 : hasSuffix fname ".bz2" = false :=
        hasSuffix_false_of_hasSuffix hzip (by decide) (by decide)
      simp [ReadableFilename, hzip, hxz, hgz, hbz2, hfok]
    · intro hbash hexec
      have hxz : hasSuffix fname ".xz" = false :=
        hasSuffix_false_of_hasSuffix hbash (by decide) (by decide)
      have hgz : hasSuffix fname ".gz" = false :=
        hasSuffix_false_of_hasSuffix hbash (by decide) (by decide)
      have hbz2 : hasSuffix fname ".bz2" = false :=
        hasSuffix_false_of_hasSuffix hbash (by decide) (by decide)
      have hzip : hasSuffix fname ".zip" = false :=
        hasSuffix_false_of_hasSuffix hbash (by decide) (by decide)
      simp [ReadableFilename, hbash, hxz, hgz, hbz2, hzip, hexec]
    · intro hxz hgz hbz2 hzip hbash
      simp [ReadableFilename, hxz, hgz, hbz2, hzip, hbash, hfok]
  · intro hfok hbash
    simp [ReadableFilename, hfok, hbash, firstMatch, fallbackCands]

/-- C1 witness: with `foo`, `foo.gz`, `foo.bz2` all present, resolving
`foo` returns the direct/plain match, not a compressed sibling. -/
theorem readable_priority_witness :
    ReadableFilename (mkWorld ["foo", "foo.gz", "foo.bz2"] [] noContent) "foo"
      = RFResult.ok "foo" (some ⟨"/bin/cat", ["foo"]⟩) 6 :=
  ((readable_priority (mkWorld ["foo", "foo.gz", "foo.bz2"] [] noContent) "foo").1
    (by decide)).2.2.2.2.2 (by decide) (by decide) (by decide) (by decide) (by decide)

/-- C2 counterexample: the claim says read resolution never panics when no
candidate file exists, but for a name ending in `.bash` the `.bash` branch
fires before any existence check and panics when the file is not
executable — in particular when it does not exist at all.  In a world with
no files, resolving `nonexistent.bash` panics instead of returning the
not-found result `("/dev/null", none, 0)`. -/
theorem readable_notfound_bash_panics :
    ReadableFilename (mkWorld [] [] noContent) "nonexistent.bash"
        = RFResult.panic "bash file exists without execute permissions:nonexistent.bash" ∧
      ReadableFilename (mkWorld [] [] noContent) "nonexistent.bash"
        ≠ RFResult.ok "/dev/null" none 0 := by
  constructor <;> decide

/-- C2 (amended): for every filename that does not end in ".bash" and for
which no tried candidate exists, read resolution is non-fatal: it returns
the not-found status code 0 with physical path "/dev/null" and no
command. -/
theorem readable_notfound (w : World) (fname : String)
    (hbash : hasSuffix fname ".bash" = false)
    (hnone : ∀ c ∈ readCands fname, w.pathOK c = false) :
    ReadableFilename w fname = .ok "/dev/null" none 0 := by
  have hf : w.pathOK fname = false := hnone fname (by simp [readCands])
  have h1 : w.pathOK (stripComp fname ++ ".xz") = false :=
    hnone _ (by simp [readCands, fallbackCands])
  have h2 : w.pathOK (stripComp fname ++ ".gz") = false :=
    hnone _ (by simp [readCands, fallbackCands])
  have h3 : w.pathOK (stripComp fname ++ ".bz2") = false :=
    hnone _ (by simp [readCands, fallbackCands])
  have h4 : w.pathOK (stripComp fname ++ ".zip") = false :=
    hnone _ (by simp [readCands, fallbackCands])
  have h5 : w.pathOK (stripComp fname) = false :=
    hnone _ (by simp [readCands, fallbackCands])
  simp [ReadableFilename, hbash, hf, h1, h2, h3, h4, h5]

/-- C2 witness: resolving `nonexistent` in an empty world returns the
not-found result without panicking. -/
theorem readable_notfound_witness :
    ReadableFilename (mkWorld [] [] noContent) "nonexistent"
      = RFResult.ok "/dev/null" none 0 :=
  readable_notfound (mkWorld [] [] noContent) "nonexistent" (by decide) (by decide)

/-- C9: for every filename ending in ".bash", when the file is executable
`ReadableFilename` returns the script-execution command and status code 5
while the returned physical path stays at the `/dev/null` placeholder (the
script's own path is never the physical path); and when the file is not
executable — including when it does not exist at all — `ReadableFilename`
panics instead of falling through to the suffix-fallback search. -/
theorem readable_bash (w : World) (fname : String)
    (hbash : hasSuffix fname ".bash" = true) :
    (w.executable fname = true →
      ReadableFilename w fname = .ok "/dev/null" (some ⟨fname, []⟩) 5) ∧
    (w.executable fname = false →
      ReadableFilename w fname
        = .panic ("bash file exists without execute permissions:" ++ fname)) := by
  have hxz : hasSuffix fname ".xz" = false :=
    hasSuffix_false_of_hasSuffix hbash (by decide) (by decide)
  have hgz : hasSuffix fname ".gz" = false :=
    hasSuffix_false_of_hasSuffix hbash (by decide) (by decide)
  have hbz2 : hasSuffix fname ".bz2" = false :=
    hasSuffix_false_of_hasSuffix hbash (by decide) (by decide)
  have hzip : hasSuffix fname ".zip" = false :=
    hasSuffix_false_of_hasSuffix hbash (by decide) (by decide)
  constructor <;> intro hexec <;>
    simp [ReadableFilename, hbash, hxz, hgz, hbz2, hzip, hexec]

/-- C9 witness: an existing executable `run.bash` resolves to the
script-execution command, code 5, physical path `/dev/null`; and the same
name in an empty world panics. -/
theorem readable_bash_witness :
    ReadableFilename (mkWorld ["run.bash"] ["run.bash"] noContent) "run.bash"
        = RFResult.ok "/dev/null" (some ⟨"run.bash", []⟩) 5 ∧
      ReadableFilename (mkWorld [] [] noContent) "run.bash"
        = RFResult.panic "bash file exists without execute permissions:run.bash" :=
  ⟨(readable_bash (mkWorld ["run.bash"] ["run.bash"] noContent) "run.bash" (by decide)).1
      (by decide),
    (readable_bash (mkWorld [] [] noContent) "run.bash" (by decide)).2 (by decide)⟩

/-- C5: write resolution searches the same fixed priority order as read
resolution (exact name first, then base+".xz", ".gz", ".bz2", ".zip", then
the bare base), deletes exactly the first existing candidate and no other
file, returns its path and status code, and panics when the deletion
fails (`firstRemove` over `wfCands` is precisely that policy, with the
`deleted` component recording every removed file).  In particular, given
only `foo.gz` exists, resolving `foo` for writing deletes `foo.gz`. -/
theorem writable_first_existing :
    (∀ (w : World) (fname : String),
      WritableFilename w fname = firstRemove w (wfCands fname)) ∧
    WritableFilename (mkWorld ["foo.gz"] [] noContent) "foo"
      = WFResult.ok "foo.gz" 8 ["foo.gz"] := by
  constructor
  · intro w fname
    by_cases hfok : w.pathOK fname
    · simp only [WritableFilename, wfCands, firstRemove, exactCode, hfok]
      by_cases hxz : hasSuffix fname ".xz" = true <;>
        by_cases hgz : hasSuffix fname ".gz" = true <;>
        by_cases hbz2 : hasSuffix fname ".bz2" = true <;>
        by_cases hzip : hasSuffix fname ".zip" = true <;>
        simp_all
    · simp only [Bool.not_eq_true] at hfok
      simp [WritableFilename, wfCands, firstRemove, exactCode, hfok]
  · decide

/-- A world with one executable script `run.bash` whose subprocess cannot
be started (`Cmd.Start` fails), while `StdoutPipe` succeeds. -/
def wStartFail : World where
  pathOK := fun p => p == "run.bash"
  executable := fun p => p == "run.bash"
  removeOK := fun _ => true
  pipeOK := fun _ => true
  startOK := fun _ => false
  openOK := fun _ => true
  gzipOK := fun _ => true
  decoded := fun _ => ['a', '\n']

/-- C7: the claim says a subprocess start failure is fatal in the
convenience entry points `OpenAny` / `OpenAnyIO`.  The code calls
`ofcmd.Start()` but then tests the error returned by `StdoutPipe()`, so
the `Start` error is silently discarded: at a resolved script whose start
fails, `OpenAny` and `OpenAnyIO` return a reader over the never-started
pipe instead of aborting (and `GetNumLines` then silently reports 0
lines), while `OpenAnyErr` does return the start failure as an explicit
error, as the claim states for the error-returning variant. -/
theorem openAny_ignores_start_failure :
    OpenAny wStartFail "run.bash"
        = OpenResult.ok (some (Reader.pipe ⟨"run.bash", []⟩ false)) ∧
      OpenAnyIO wStartFail "run.bash"
        = OpenResult.ok (some (Reader.pipe ⟨"run.bash", []⟩ false)) ∧
      OpenAnyErr wStartFail "run.bash" = OpenErrResult.error "start failed:run.bash" ∧
      GetNumLines wStartFail "run.bash" = NumResult.ok 0 := by
  refine ⟨by decide, by decide, by decide, ?_⟩
  have h : OpenAny wStartFail "run.bash"
      = OpenResult.ok (some (Reader.pipe ⟨"run.bash", []⟩ false)) := by decide
  simp [GetNumLines, h, readerOK, contentOf, readLineCount]

/-- C10: when read resolution finds no candidate (status 0, nil command),
`OpenAny` returns a nil reader rather than panicking, and `GetNumLines`,
which unconditionally calls `ReadLine` on the returned reader, panics with
a nil-pointer dereference instead of returning a count. -/
theorem getNumLines_nil_deref (w : World) (fname : String)
    (h : ReadableFilename w fname = .ok "/dev/null" none 0) :
    OpenAny w fname = .ok none ∧
      GetNumLines w fname
        = .panic "runtime error: invalid memory address or nil pointer dereference" := by
  have ho : OpenAny w fname = .ok none := by simp [OpenAny, h]
  exact ⟨ho, by simp [GetNumLines, ho]⟩

/-- C10 witness: a nonexistent plain name in an empty world. -/
theorem getNumLines_nil_deref_witness :
    OpenAny (mkWorld [] [] noContent) "nonexistent" = OpenResult.ok none ∧
      GetNumLines (mkWorld [] [] noContent) "nonexistent"
        = NumResult.panic "runtime error: invalid memory address or nil pointer dereference" :=
  getNumLines_nil_deref (mkWorld [] [] noContent) "nonexistent" (by decide)

/-- A world with a plain file `foo` whose content is `ab` — two bytes and
no newline at all. -/
def wUnterminated : World :=
  mkWorld ["foo"] [] (fun p => if p == "foo" then ['a', 'b'] else [])

/-- C8 counterexample: the claim says `GetNumLines` returns the number of
newline-terminated records of the decoded stream.  For a file whose
content is `ab` (no newline, hence zero newline-terminated records) the
`ReadLine` loop still yields the final unterminated line once, and
`GetNumLines` returns 1. -/
theorem getNumLines_counts_unterminated :
    GetNumLines wUnterminated "foo" = NumResult.ok 1 ∧
      nlRecords (wUnterminated.decoded "foo") = 0 := by
  constructor
  · have h : OpenAny wUnterminated "foo" = OpenResult.ok (some (Reader.file "foo")) := by
      decide
    have hc : contentOf wUnterminated (Reader.file "foo") = ['a', 'b'] := by decide
    have hcount : readLineCount ['a', 'b'] = 1 := by
      rw [readLineCount_of_fit _ (by decide)]
      decide
    simp [GetNumLines, h, readerOK, hc, hcount]
  · decide

/-- C8 (amended): for every input that opens successfully with a working
reader (in particular not a discarded-error gzip reader, which panics at
the first read) and whose decoded stream has every newline-free run
strictly shorter than the 20*4096-byte read buffer (a longer run is
returned as several counted `isPrefix` fragments), `GetNumLines` reads the
stream to completion and returns the number of newline-terminated records,
plus one when the stream ends in a nonempty record without a final
newline. -/
theorem getNumLines_count (w : World) (fname : String) (r : Reader)
    (h : OpenAny w fname = .ok (some r)) (hok : readerOK r = true)
    (hfit : runFit 0 (contentOf w r) = true) :
    GetNumLines w fname
      = .ok (nlRecords (contentOf w r)
          + (if trailingUnterminated (contentOf w r) then 1 else 0)) := by
  simp [GetNumLines, h, hok, readLineCount_of_fit _ hfit]

/-- A world with a plain file `bar` containing two newline-terminated
records. -/
def wTwoLines : World :=
  mkWorld ["bar"] [] (fun p => if p == "bar" then ['x', '\n', 'y', '\n'] else [])

/-- C8 witness: `bar` with content `x\ny\n` is counted as two records. -/
theorem getNumLines_count_witness :
    GetNumLines wTwoLines "bar"
      = NumResult.ok (nlRecords (contentOf wTwoLines (Reader.file "bar"))
          + (if trailingUnterminated (contentOf wTwoLines (Reader.file "bar")) then 1 else 0)) :=
  getNumLines_count wTwoLines "bar" (Reader.file "bar") (by decide) (by decide) (by decide)

/-- C4: for every mapping and every ordering rule, the output of the
Ordered-Projection functions is a permutation of the input mapping's keys,
and its length equals the number of keys. -/
theorem sortedKeys_perm (mpS : List (String × Int)) (mpB : List (String × Bool))
    (mpT : List (String × String)) (mpI : List (Int × Int)) :
    ((SortedKeys_String2Int mpS).Perm (mpS.map Prod.fst)
      ∧ (SortedKeys_String2Int mpS).length = mpS.length) ∧
    ((SortedKeys_String2Int64 mpS).Perm (mpS.map Prod.fst)
      ∧ (SortedKeys_String2Int64 mpS).length = mpS.length) ∧
    ((SortedKeys_String2Float64 mpS).Perm (mpS.map Prod.fst)
      ∧ (SortedKeys_String2Float64 mpS).length = mpS.length) ∧
    ((SortedKeys_String2Bool mpB).Perm (mpB.map Prod.fst)
      ∧ (SortedKeys_String2Bool mpB).length = mpB.length) ∧
    ((SortedKeys_String2String mpT).Perm (mpT.map Prod.fst)
      ∧ (SortedKeys_String2String mpT).length = mpT.length) ∧
    ((SortedKeys_Int2Int mpI).Perm (mpI.map Prod.fst)
      ∧ (SortedKeys_Int2Int mpI).length = mpI.length) ∧
    ((SortedKeysByVal_String2Float64_Ascending mpS).Perm (mpS.map Prod.fst)
      ∧ (SortedKeysByVal_String2Float64_Ascending mpS).length = mpS.length) ∧
    ((SortedKeysByVal_String2Float64_Descending mpS).Perm (mpS.map Prod.fst)
      ∧ (SortedKeysByVal_String2Float64_Descending mpS).length = mpS.length) ∧
    ((SortedKeysByVal_String2Float64_AbsAscending mpS).Perm (mpS.map Prod.fst)
      ∧ (SortedKeysByVal_String2Float64_AbsAscending mpS).length = mpS.length) ∧
    ((SortedKeysByVal_String2Float64_AbsDescending mpS).Perm (mpS.map Prod.fst)
      ∧ (SortedKeysByVal_String2Float64_AbsDescending mpS).length = mpS.length) := by
  have hS := List.perm_insertionSort strLe (mpS.map Prod.fst)
  have hB := List.perm_insertionSort strLe (mpB.map Prod.fst)
  have hT := List.perm_insertionSort strLe (mpT.map Prod.fst)
  have hI := List.perm_insertionSort (fun a b : Int => a ≤ b) (mpI.map Prod.fst)
  have hA := (List.perm_insertionSort ascRel mpS).map Prod.fst
  have hD := (List.perm_insertionSort descRel mpS).map Prod.fst
  have hAA := (List.perm_insertionSort absAscRel mpS).map Prod.fst
  have hAD := (List.perm_insertionSort absDescRel mpS).map Prod.fst
  exact ⟨⟨hS, hS.length_eq.trans (List.length_map _ _)⟩,
    ⟨hS, hS.length_eq.trans (List.length_map _ _)⟩,
    ⟨hS, hS.length_eq.trans (List.length_map _ _)⟩,
    ⟨hB, hB.length_eq.trans (List.length_map _ _)⟩,
    ⟨hT, hT.length_eq.trans (List.length_map _ _)⟩,
    ⟨hI, hI.length_eq.trans (List.length_map _ _)⟩,
    ⟨hA, hA.length_eq.trans (List.length_map _ _)⟩,
    ⟨hD, hD.length_eq.trans (List.length_map _ _)⟩,
    ⟨hAA, hAA.length_eq.trans (List.length_map _ _)⟩,
    ⟨hAD, hAD.length_eq.trans (List.length_map _ _)⟩⟩

/-- C6: under key-ascending ordering the output is THE sorted permutation
of the map's keys — sorted (bytewise-lexicographic for text keys, numeric
for integer keys), a permutation of the keys, and equal to every sorted
permutation of the keys; the spec's example and the empty mapping are
included. -/
theorem sortedKeys_unique_sorted :
    (∀ mp : List (String × Int),
      List.Sorted strLe (SortedKeys_String2Int mp) ∧
      (SortedKeys_String2Int mp).Perm (mp.map Prod.fst) ∧
      (∀ l : List String, List.Sorted strLe l → l.Perm (mp.map Prod.fst) →
        l = SortedKeys_String2Int mp)) ∧
    (∀ mp : List (Int × Int),
      List.Sorted (fun a b : Int => a ≤ b) (SortedKeys_Int2Int mp) ∧
      (SortedKeys_Int2Int mp).Perm (mp.map Prod.fst) ∧
      (∀ l : List Int, List.Sorted (fun a b : Int => a ≤ b) l → l.Perm (mp.map Prod.fst) →
        l = SortedKeys_Int2Int mp)) ∧
    SortedKeys_String2Int [("b", 1), ("a", 2), ("c", 3)] = ["a", "b", "c"] ∧
    SortedKeys_String2Int [] = [] := by
  refine ⟨?_, ?_, by decide, by decide⟩
  · intro mp
    have hperm := List.perm_insertionSort strLe (mp.map Prod.fst)
    refine ⟨List.sorted_insertionSort strLe (mp.map Prod.fst), hperm, ?_⟩
    intro l hs hp
    exact List.eq_of_perm_of_sorted (hp.trans hperm.symm) hs
      (List.sorted_insertionSort strLe (mp.map Prod.fst))
  · intro mp
    have hperm := List.perm_insertionSort (fun a b : Int => a ≤ b) (mp.map Prod.fst)
    refine ⟨List.sorted_insertionSort (fun a b : Int => a ≤ b) (mp.map Prod.fst), hperm, ?_⟩
    intro l hs hp
    exact List.eq_of_perm_of_sorted (hp.trans hperm.symm) hs
      (List.sorted_insertionSort (fun a b : Int => a ≤ b) (mp.map Prod.fst))

/-- C6 witness: the unique sorted permutation of the example's keys is the
function's output. -/
theorem sortedKeys_unique_sorted_witness :
    ["a", "b", "c"] = SortedKeys_String2Int [("b", 1), ("a", 2), ("c", 3)] :=
  (sortedKeys_unique_sorted.1 [("b", 1), ("a", 2), ("c", 3)]).2.2 ["a", "b", "c"]
    (by decide) (by decide)

/-- C3: for every mapping with duplicate-free keys, adjacent outputs of the
value-ordering rules satisfy the selected comparator: ascending order gives
value(output(i)) ≤ value(output(i+1)); descending the reverse; the
absolute variants compare absolute values. -/
theorem sortedKeysByVal_adjacent (mp : List (String × Int))
    (hnd : (mp.map Prod.fst).Nodup) (i : Nat) :
    (∀ (h : i + 1 < (SortedKeysByVal_String2Float64_Ascending mp).length)
      (k₁ k₂ : String) (v₁ v₂ : Int), (k₁, v₁) ∈ mp → (k₂, v₂) ∈ mp →
      (SortedKeysByVal_String2Float64_Ascending mp).get ⟨i, Nat.lt_of_succ_lt h⟩ = k₁ →
      (SortedKeysByVal_String2Float64_Ascending mp).get ⟨i + 1, h⟩ = k₂ →
      v₁ ≤ v₂) ∧
    (∀ (h : i + 1 < (SortedKeysByVal_String2Float64_Descending mp).length)
      (k₁ k₂ : String) (v₁ v₂ : Int), (k₁, v₁) ∈ mp → (k₂, v₂) ∈ mp →
      (SortedKeysByVal_String2Float64_Descending mp).get ⟨i, Nat.lt_of_succ_lt h⟩ = k₁ →
      (SortedKeysByVal_String2Float64_Descending mp).get ⟨i + 1, h⟩ = k₂ →
      v₂ ≤ v₁) ∧
    (∀ (h : i + 1 < (SortedKeysByVal_String2Float64_AbsAscending mp).length)
      (k₁ k₂ : String) (v₁ v₂ : Int), (k₁, v₁) ∈ mp → (k₂, v₂) ∈ mp →
      (SortedKeysByVal_String2Float64_AbsAscending mp).get ⟨i, Nat.lt_of_succ_lt h⟩ = k₁ →
      (SortedKeysByVal_String2Float64_AbsAscending mp).get ⟨i + 1, h⟩ = k₂ →
      |v₁| ≤ |v₂|) ∧
    (∀ (h : i + 1 < (SortedKeysByVal_String2Float64_AbsDescending mp).length)
      (k₁ k₂ : String) (v₁ v₂ : Int), (k₁, v₁) ∈ mp → (k₂, v₂) ∈ mp →
      (SortedKeysByVal_String2Float64_AbsDescending mp).get ⟨i, Nat.lt_of_succ_lt h⟩ = k₁ →
      (SortedKeysByVal_String2Float64_AbsDescending mp).get ⟨i + 1, h⟩ = k₂ →
      |v₂| ≤ |v₁|) := by
  refine ⟨?_, ?_, ?_, ?_⟩
  · intro h k₁ k₂ v₁ v₂ m₁ m₂ e₁ e₂
    exact byVal_adjacent (r := ascRel) mp hnd i (i + 1) (Nat.lt_succ_self i) h
      k₁ k₂ v₁ v₂ m₁ m₂ e₁ e₂
  · intro h k₁ k₂ v₁ v₂ m₁ m₂ e₁ e₂
    exact byVal_adjacent (r := descRel) mp hnd i (i + 1) (Nat.lt_succ_self i) h
      k₁ k₂ v₁ v₂ m₁ m₂ e₁ e₂
  · intro h k₁ k₂ v₁ v₂ m₁ m₂ e₁ e₂
    exact byVal_adjacent (r := absAscRel) mp hnd i (i + 1) (Nat.lt_succ_self i) h
      k₁ k₂ v₁ v₂ m₁ m₂ e₁ e₂
  · intro h k₁ k₂ v₁ v₂ m₁ m₂ e₁ e₂
    exact byVal_adjacent (r := absDescRel) mp hnd i (i + 1) (Nat.lt_succ_self i) h
      k₁ k₂ v₁ v₂ m₁ m₂ e₁ e₂

/-- C3 witness: the spec's value-ascending example (keys y, z adjacent with
values 1 ≤ 2) and absolute-descending example (keys p, r adjacent with
|-4| ≤ |-5|). -/
theorem sortedKeysByVal_adjacent_witness :
    (1 : Int) ≤ 2 ∧ |(-4 : Int)| ≤ |(-5 : Int)| :=
  ⟨(sortedKeysByVal_adjacent [("x", 3), ("y", 1), ("z", 2)] (by decide) 0).1
      (by decide) "y" "z" 1 2 (by decide) (by decide) (by decide) (by decide),
    (sortedKeysByVal_adjacent [("p", -5), ("q", 3), ("r", -4)] (by decide) 0).2.2.2
      (by decide) "p" "r" (-5) (-4) (by decide) (by decide) (by decide) (by decide)⟩
